import Mathlib

/-!
Shallow embedding of the rust-numpy-financial library (time-value-of-money
formulas and root-finders) and verification of its specification claims.

Modelling conventions:
* Rust `f64` values are modelled as exact rationals `ℚ`.  The algorithms of the
  library are arithmetic over `f64`; we reason in exact arithmetic, the standard
  idealisation for numeric code.
* Where IEEE-754 special behaviour is decisive for a claim it is modelled
  explicitly: in `float_close` a division by zero produces `±inf`/`NaN`, for
  which `≤ rtol` is false, so the relative condition is modelled as `false`
  when the divisor is zero.
* The `f64::INFINITY` constant returned by `NumberPeriod::nper` and the
  transcendental payload `ln(a)/ln(b)` of its last branch are represented by
  dedicated constructors of an output type (`NperOut`), keeping every
  definition computable while preserving exactly which branch produced the
  result and from which arguments.
* Rust `u32` becomes `ℕ`; `Vec<f64>` becomes `List ℚ`; `Option` stays
  `Option`; a Rust panic (from `Option::unwrap` on `None`) is a dedicated
  constructor of the result type where it can occur.
-/

namespace RNF

/-- Tolerance of relative difference (`RTOL` in `util.rs`). -/
def RTOL : ℚ := 1 / 10 ^ 10

/-- Tolerance of absolute difference (`ATOL` in `util.rs`). -/
def ATOL : ℚ := 1 / 10 ^ 5

/-- Embedding of `util.rs::float_close`.  The Rust code computes
`cond1 = ((lhs - rhs) / rhs).abs() <= rtol` in `f64`; when `rhs == 0.0` the
division yields `±inf` (or `NaN` when `lhs == rhs`), and in either case the
`<=` comparison is false, which we model by making the relative condition
`false` for a zero divisor. -/
def float_close (lhs rhs rtol atol : ℚ) : Bool :=
  let cond1 : Bool := if rhs = 0 then false else decide (|(lhs - rhs) / rhs| ≤ rtol)
  let cond2 : Bool := decide (|lhs - rhs| ≤ atol)
  cond1 || cond2

/-- Embedding of `util.rs::WhenType`: when payments are due in a payment
period. -/
inductive WhenType
  | End
  | Begin
deriving DecidableEq, Repr

/-- Numeric weight of a `WhenType`, the Rust cast `when as u8 as f64`
(`End = 0`, `Begin = 1`). -/
def whenF64 : WhenType → ℚ
  | WhenType.End => 0
  | WhenType.Begin => 1

namespace FutureValue

/-- Embedding of `fv.rs::FutureValue::fv` (fields passed as arguments). -/
def fv (rate : ℚ) (nper : ℕ) (pmt pv : ℚ) (when : WhenType) : ℚ :=
  if rate ≠ 0 then
    let tmp := (1 + rate) ^ nper
    let pv_future := pv * tmp
    let when_f64 := whenF64 when
    let pmt_future := pmt * (1 + rate * when_f64) / rate * (tmp - 1)
    (-pv_future - pmt_future)
  else
    -pv - pmt * (nper : ℚ)

end FutureValue

namespace Payment

/-- Embedding of `pmt.rs::Payment::pmt` (fields passed as arguments). -/
def pmt (rate : ℚ) (nper : ℕ) (pv fv : ℚ) (when : WhenType) : ℚ :=
  if rate ≠ 0 then
    let tmp := (1 + rate) ^ nper
    let pv_future := pv * tmp
    let when_f64 := whenF64 when
    let fact := (1 + rate * when_f64) / rate * (tmp - 1)
    (-(fv + pv_future) / fact)
  else
    -(pv + fv) / (nper : ℚ)

end Payment

namespace InterestPayment

/-- Embedding of `ipmt.rs::InterestPayment::ipmt` (fields passed as
arguments).  `per` and `nper` are `u32`; the code computes the remaining
balance with `FutureValue` over `per - 1` periods (only evaluated under
`per >= 1`, so the `ℕ` subtraction agrees with the `u32` one). -/
def ipmt (rate : ℚ) (per nper : ℕ) (pv fv : ℚ) (when : WhenType) : Option ℚ :=
  let total_pmt := Payment.pmt rate nper pv fv when
  if 1 ≤ per then
    let rbl := FutureValue.fv rate (per - 1) total_pmt pv when
    match when with
    | WhenType.Begin =>
      if per = 1 then some 0 else some (rbl / (1 + rate) * rate)
    | WhenType.End => some (rbl * rate)
  else
    none

end InterestPayment

namespace PrincipalPayment

/-- Embedding of `ppmt.rs::PrincipalPayment::ppmt` (fields passed as
arguments): the principal portion is the total payment minus the interest
portion, absence propagating from `InterestPayment`. -/
def ppmt (rate : ℚ) (per nper : ℕ) (pv fv : ℚ) (when : WhenType) : Option ℚ :=
  let total_pmt := Payment.pmt rate nper pv fv when
  match InterestPayment.ipmt rate per nper pv fv when with
  | some value => some (total_pmt - value)
  | none => none

end PrincipalPayment

namespace NetPresentValue

/-- Embedding of `npv.rs::NetPresentValue::npv`: the sum of
`values[p] * (1 + rate) ^ (-p)` over the positions `p` of the cash-flow
sequence.  The `ℚ` zero-power convention (`0 ^ (-p) = 0`) replaces the IEEE
infinities produced at `rate = -1`; no claim depends on that corner. -/
def npv (values : List ℚ) (rate : ℚ) : ℚ :=
  (values.enum.map (fun pc => pc.2 * (1 + rate) ^ (-(pc.1 : ℤ)))).sum

end NetPresentValue

/-- Payload of a successful `ModifiedIRR::mirr` computation, kept symbolic:
it stands for the f64 value
`(numer / denom) ^ (1 / (n - 1)) * (1 + reinvest_rate) - 1`, whose `powf`
with rational exponent leaves `ℚ`.  The fields record exactly the arguments
the Rust code feeds into that closed-form step. -/
structure MirrVal where
  numer : ℚ
  denom : ℚ
  n : ℕ
  reinvest_rate : ℚ
deriving DecidableEq, Repr

namespace ModifiedIRR

/-- Embedding of `mirr.rs::ModifiedIRR::mirr` (fields passed as arguments):
absence unless some value is `≤ 0` and some value is `> 0`; otherwise the
flows are split by sign, discounted with `NetPresentValue`, and the
closed-form ingredients are returned. -/
def mirr (values : List ℚ) (finance_rate reinvest_rate : ℚ) : Option MirrVal :=
  let any_negative := values.any (fun v => decide (v ≤ 0))
  let any_positive := values.any (fun v => decide (0 < v))
  if !(any_negative && any_positive) then
    none
  else
    let neg_pmts := values.map (fun rf => if rf < 0 then rf else 0)
    let pos_pmts := values.map (fun rf => if 0 < rf then rf else 0)
    let numer := |NetPresentValue.npv pos_pmts reinvest_rate|
    let denom := |NetPresentValue.npv neg_pmts finance_rate|
    some ⟨numer, denom, values.length, reinvest_rate⟩

end ModifiedIRR

/-- Result type of `InternalRateReturn::irr`: the Rust function returns
`Result<Option<f64>>` but also contains `find_root(..)?.unwrap()`, where
`unwrap` on `None` aborts the process; `panicked` models that abort as a
distinct outcome.  (The `Err` channel of the `Result` is unreachable in
`irr`, so it has no constructor here.) -/
inductive IrrResult
  | ok (r : Option ℚ)
  | panicked
deriving DecidableEq, Repr

namespace InternalRateReturn

/-- Embedding of `irr.rs::InternalRateReturn::fx`: the cash-flow values,
reversed, are the coefficients of an ascending-power polynomial in `x`. -/
def fx (v : List ℚ) (x : ℚ) : ℚ :=
  (v.reverse.enum.map fun pc => pc.2 * x ^ pc.1).sum

/-- Embedding of `irr.rs::InternalRateReturn::dx`: derivative of `fx`,
summing `c * (p + 1) * x ^ p` over the reversed values with the first one
skipped. -/
def dx (v : List ℚ) (x : ℚ) : ℚ :=
  ((v.reverse.drop 1).enum.map fun pc => pc.2 * ((pc.1 : ℚ) + 1) * x ^ pc.1).sum

/-- Embedding of the `while iter < 100` loop of
`irr.rs::InternalRateReturn::find_root`, with the remaining iteration budget
as fuel: when the derivative is tolerance-close to zero the iterate is nudged
by `+1`; when two successive iterates are tolerance-close the new iterate is
returned; otherwise the loop continues, and an exhausted budget gives
`none`. -/
def findRootLoop (v : List ℚ) : ℚ → ℕ → Option ℚ
  | _, 0 => none
  | x, k + 1 =>
    let f := fx v x
    let d := dx v x
    if float_close d 0 RTOL ATOL then
      findRootLoop v (x + 1) k
    else
      let x1 := x - f / d
      if float_close x x1 RTOL ATOL then some x1
      else findRootLoop v x1 k

/-- Embedding of `irr.rs::InternalRateReturn::find_root`: Newton-Raphson from
`x = -0.9` with a budget of 100 iterations. -/
def find_root (v : List ℚ) : Option ℚ :=
  findRootLoop v (-(9 / 10)) 100

/-- Embedding of `irr.rs::InternalRateReturn::irr`: absence for sequences of
length at most 1 or with all values `≤ 0` or all `> 0`; otherwise the result
of `find_root(..)?.unwrap() - 1.0`, which panics when `find_root` comes back
empty. -/
def irr (values : List ℚ) : IrrResult :=
  if values.length ≤ 1 then
    IrrResult.ok none
  else
    let all_negative := values.all fun v => decide (v ≤ 0)
    let all_positive := values.all fun v => decide (0 < v)
    if all_negative || all_positive then
      IrrResult.ok none
    else
      match find_root values with
      | some x => IrrResult.ok (some (x - 1))
      | none => IrrResult.panicked

end InternalRateReturn

namespace Rate

/-- Embedding of `rate.rs::Rate::_g_div_gp`, the Newton quotient
`g(r) / g'(r)` for the annuity equation.  The Rust exponents `n` and
`n - 1.0` are the `u32` value `n` cast to `f64` and that value minus one —
integer exponents (possibly `-1` when `n = 0`), modelled with `zpow`;
`r.powf(2.0)` is `r ^ 2`. -/
def _g_div_gp (r : ℚ) (n : ℕ) (p x y : ℚ) (w : WhenType) : ℚ :=
  let nq : ℚ := (n : ℚ)
  let wq : ℚ := whenF64 w
  let t1 := (r + 1) ^ (n : ℤ)
  let t2 := (r + 1) ^ ((n : ℤ) - 1)
  let g := y + t1 * x + p * (t1 - 1) * (r * wq + 1) / r
  let gp := nq * t2 * x - p * (t1 - 1) * (r * wq + 1) / r ^ 2 +
      nq * p * t2 * (r * wq + 1) / r + p * (t1 - 1) * wq / r
  g / gp

/-- One Newton update of `rate.rs::Rate::rate`:
`rnp1 = rn - _g_div_gp(rn, nper, pmt, pv, fv, when)`. -/
def step (n : ℕ) (pmt pv fv : ℚ) (w : WhenType) (rn : ℚ) : ℚ :=
  rn - _g_div_gp rn n pmt pv fv w

/-- Embedding of the `while (iter < maxiter) & (!close)` loop of
`rate.rs::Rate::rate`, with the remaining iteration budget as fuel: each pass
computes the Newton update, declares convergence when the update is within
`tol` of the previous iterate (returning the updated iterate), and otherwise
continues; an exhausted budget gives `none`. -/
def rateLoop (n : ℕ) (pmt pv fv : ℚ) (w : WhenType) (tol : ℚ) : ℚ → ℕ → Option ℚ
  | _, 0 => none
  | rn, k + 1 =>
    let rnp1 := step n pmt pv fv w rn
    if |rnp1 - rn| < tol then some rnp1
    else rateLoop n pmt pv fv w tol rnp1 k

/-- Embedding of `rate.rs::Rate::rate` (fields passed as arguments): the
Newton iteration starts from the caller-supplied guess and runs for at most
`maxiter` passes. -/
def rate (n : ℕ) (pmt pv fv : ℚ) (w : WhenType) (guess tol : ℚ)
    (maxiter : ℕ) : Option ℚ :=
  rateLoop n pmt pv fv w tol guess maxiter

/-- Sequence of Newton iterates of `Rate::rate` starting from `guess`. -/
def seq (n : ℕ) (pmt pv fv : ℚ) (w : WhenType) (guess : ℚ) (i : ℕ) : ℚ :=
  (step n pmt pv fv w)^[i] guess

end Rate

/-- Output type of `NumberPeriod::nper`.  The Rust function returns an `f64`
that is either the constant `f64::INFINITY` (first branch), a plain finite
quotient (second branch), or the value `a.ln() / b.ln()` (last branch); the
transcendental last value is kept symbolic so every definition stays
computable.  `logRatio a b` stands for the f64 value `a.ln() / b.ln()`, which
is `NaN` whenever the log argument `a` is not positive. -/
inductive NperOut
  | posInf
  | num (x : ℚ)
  | logRatio (a b : ℚ)
deriving DecidableEq, Repr

namespace NumberPeriod

/-- Embedding of `nper.rs::NumberPeriod::nper` (fields passed as arguments). -/
def nper (rate pmt pv fv : ℚ) (when : WhenType) : Option NperOut :=
  if rate = 0 ∧ pmt = 0 then
    some NperOut.posInf
  else if rate = 0 then
    some (NperOut.num (-(fv + pv) / pmt))
  else if rate ≤ -1 then
    none
  else
    let when_f64 := whenF64 when
    let z := pmt * (1 + rate * when_f64) / rate
    some (NperOut.logRatio ((-fv + z) / (pv + z)) (1 + rate))

end NumberPeriod

/-- Specification claim C7: `float_close(lhs, rhs, rtol, atol)` returns true
iff the relative difference `|lhs - rhs| / |rhs|` is at most `rtol` or the
absolute difference `|lhs - rhs|` is at most `atol`; for `rhs = 0` the
relative branch degenerates (IEEE division by zero) and the absolute
criterion `|lhs| ≤ atol` alone decides the result. -/
theorem float_close_spec (lhs rhs rtol atol : ℚ) :
    (rhs ≠ 0 →
      (float_close lhs rhs rtol atol = true ↔
        |lhs - rhs| / |rhs| ≤ rtol ∨ |lhs - rhs| ≤ atol)) ∧
    (rhs = 0 →
      (float_close lhs rhs rtol atol = true ↔ |lhs| ≤ atol)) := by
  constructor
  · intro h
    simp only [float_close, if_neg h, Bool.or_eq_true, decide_eq_true_eq, abs_div]
  · intro h
    subst h
    simp [float_close]

/-- Witness for C7 at a concrete input: `lhs = 1`, `rhs = 2`, `rtol = 1`,
`atol = 0` satisfies the relative criterion, so `float_close` returns true. -/
theorem float_close_spec_witness : float_close 1 2 1 0 = true :=
  ((float_close_spec 1 2 1 0).1 (by norm_num)).mpr (Or.inl (by norm_num))

/-- Specification claim C3: `NumberPeriod.get()` evaluates its special cases
in priority order: `rate = 0 ∧ pmt = 0` returns the `f64::INFINITY` constant
(not `NaN`); `rate = 0 ∧ pmt ≠ 0` returns `some (-(fv + pv) / pmt)`;
`rate ≤ -1` returns `none`; otherwise it returns
`some (ln((-fv + z) / (pv + z)) / ln(1 + rate))` with
`z = pmt * (1 + rate * when) / rate` — a `some`, never `none`, even when a
non-positive log argument makes the value `NaN`. -/
theorem nper_branches (rate pmt pv fv : ℚ) (when : WhenType) :
    (rate = 0 ∧ pmt = 0 →
      NumberPeriod.nper rate pmt pv fv when = some NperOut.posInf) ∧
    (rate = 0 ∧ pmt ≠ 0 →
      NumberPeriod.nper rate pmt pv fv when =
        some (NperOut.num (-(fv + pv) / pmt))) ∧
    (rate ≤ -1 →
      NumberPeriod.nper rate pmt pv fv when = none) ∧
    (rate ≠ 0 → ¬rate ≤ -1 →
      NumberPeriod.nper rate pmt pv fv when =
        some (NperOut.logRatio
          ((-fv + pmt * (1 + rate * whenF64 when) / rate) /
            (pv + pmt * (1 + rate * whenF64 when) / rate))
          (1 + rate))) := by
  refine ⟨?_, ?_, ?_, ?_⟩
  · intro h
    simp [NumberPeriod.nper, h.1, h.2]
  · intro h
    simp [NumberPeriod.nper, h.1, h.2]
  · intro h
    have hr : rate ≠ 0 := by intro h0; rw [h0] at h; norm_num at h
    simp [NumberPeriod.nper, hr, h]
  · intro hr hle
    simp [NumberPeriod.nper, hr, hle]

/-- Witness for C3 at concrete inputs: the degenerate branch returns the
infinity constant, and a rate of `-2 ≤ -1` returns absence. -/
theorem nper_branches_witness :
    NumberPeriod.nper 0 0 5 7 WhenType.End = some NperOut.posInf ∧
    NumberPeriod.nper (-2) 1 1 1 WhenType.End = none :=
  ⟨(nper_branches 0 0 5 7 WhenType.End).1 ⟨rfl, rfl⟩,
   (nper_branches (-2) 1 1 1 WhenType.End).2.2.1 (by norm_num)⟩

/-- Specification claim C4: `FutureValue.get()` returns exactly the
closed-form solution of the annuity identity — for `rate ≠ 0`:
`-pv * (1 + rate) ^ nper - pmt * (1 + rate * when) / rate * ((1 + rate) ^ nper - 1)`,
and for `rate = 0`: `-pv - pmt * nper`, with the numeric weight of `when`
being `0` for `End` and `1` for `Begin`. -/
theorem fv_closed_form (rate : ℚ) (nper : ℕ) (pmt pv : ℚ) (when : WhenType) :
    (rate ≠ 0 →
      FutureValue.fv rate nper pmt pv when =
        -pv * (1 + rate) ^ nper -
          pmt * (1 + rate * whenF64 when) / rate * ((1 + rate) ^ nper - 1)) ∧
    (rate = 0 →
      FutureValue.fv rate nper pmt pv when = -pv - pmt * (nper : ℚ)) ∧
    whenF64 WhenType.End = 0 ∧ whenF64 WhenType.Begin = 1 := by
  refine ⟨?_, ?_, rfl, rfl⟩
  · intro h
    simp only [FutureValue.fv, if_pos h]
    ring
  · intro h
    simp [FutureValue.fv, h]

/-- Witness for C4 at a concrete input: `rate = 1`, `nper = 2`, `pmt = 1`,
`pv = 1`, `when = End` gives `-1 * 4 - 3 = -7`. -/
theorem fv_closed_form_witness : FutureValue.fv 1 2 1 1 WhenType.End = -7 := by
  have h := (fv_closed_form 1 2 1 1 WhenType.End).1 (by norm_num)
  rw [h]
  norm_num [whenF64]

/-- Specification claim C5: `Payment` inverts `FutureValue` — whenever the
annuity factor `Payment` divides by is nonzero (`rate ≠ 0` with
`(1 + rate * when) / rate * ((1 + rate) ^ nper - 1) ≠ 0`, or `rate = 0` with
`nper ≠ 0`), feeding `Payment`'s result back into `FutureValue` returns `fv`
exactly (in exact arithmetic). -/
theorem pmt_inverts_fv (rate : ℚ) (nper : ℕ) (pv fv : ℚ) (when : WhenType) :
    (rate ≠ 0 →
      (1 + rate * whenF64 when) / rate * ((1 + rate) ^ nper - 1) ≠ 0 →
      FutureValue.fv rate nper (Payment.pmt rate nper pv fv when) pv when = fv) ∧
    (rate = 0 → (nper : ℚ) ≠ 0 →
      FutureValue.fv rate nper (Payment.pmt rate nper pv fv when) pv when = fv) := by
  constructor
  · intro hr hf
    have h1 : (1 + rate * whenF64 when) ≠ 0 := by
      intro h0
      apply hf
      rw [div_eq_mul_inv, h0]
      ring
    have h2 : ((1 + rate) ^ nper - 1) ≠ 0 := by
      intro h0
      apply hf
      rw [h0]
      ring
    simp only [FutureValue.fv, Payment.pmt, if_pos hr]
    field_simp
    ring
  · intro hr hn
    simp only [FutureValue.fv, Payment.pmt, if_neg (not_not_intro hr)]
    field_simp

/-- Witness for C5 at a concrete input: `rate = 1`, `nper = 2`, `pv = 1`,
`fv = 5`, `when = End` — the annuity factor is `3 ≠ 0` and the round trip
through `Payment` and `FutureValue` restores `fv = 5`. -/
theorem pmt_inverts_fv_witness :
    FutureValue.fv 1 2 (Payment.pmt 1 2 1 5 WhenType.End) 1 WhenType.End = 5 :=
  (pmt_inverts_fv 1 2 1 5 WhenType.End).1 (by norm_num)
    (by norm_num [whenF64])

/-- Specification claim C6: for every `per` in `[1, nper]`, `InterestPayment`
and `PrincipalPayment` with identical parameters both return `some`, and the
two portions sum exactly to `Payment`'s total payment (the principal is
computed as `total_pmt - interest_pmt`). -/
theorem ipmt_ppmt_sum (rate : ℚ) (per nper : ℕ) (pv fv : ℚ) (when : WhenType)
    (h1 : 1 ≤ per) (h2 : per ≤ nper) :
    (InterestPayment.ipmt rate per nper pv fv when).isSome = true ∧
    (PrincipalPayment.ppmt rate per nper pv fv when).isSome = true ∧
    (InterestPayment.ipmt rate per nper pv fv when).getD 0 +
        (PrincipalPayment.ppmt rate per nper pv fv when).getD 0 =
      Payment.pmt rate nper pv fv when := by
  obtain ⟨i, hi⟩ : ∃ i, InterestPayment.ipmt rate per nper pv fv when = some i := by
    unfold InterestPayment.ipmt
    rw [if_pos h1]
    cases when with
    | Begin =>
      by_cases hp : per = 1
      · exact ⟨0, by simp [hp]⟩
      · exact ⟨FutureValue.fv rate (per - 1)
            (Payment.pmt rate nper pv fv WhenType.Begin) pv WhenType.Begin /
            (1 + rate) * rate, by simp [hp]⟩
    | End => exact ⟨_, rfl⟩
  have hp : PrincipalPayment.ppmt rate per nper pv fv when =
      some (Payment.pmt rate nper pv fv when - i) := by
    unfold PrincipalPayment.ppmt
    rw [hi]
  rw [hi, hp]
  refine ⟨rfl, rfl, ?_⟩
  simp only [Option.getD_some]
  ring

/-- Witness for C6 at a concrete input: `rate = 1`, `per = 1`, `nper = 2`,
`pv = 1`, `fv = 0`, `when = End` — both splits are present and sum to the
total payment. -/
theorem ipmt_ppmt_sum_witness :
    (InterestPayment.ipmt 1 1 2 1 0 WhenType.End).isSome = true ∧
    (PrincipalPayment.ppmt 1 1 2 1 0 WhenType.End).isSome = true ∧
    (InterestPayment.ipmt 1 1 2 1 0 WhenType.End).getD 0 +
        (PrincipalPayment.ppmt 1 1 2 1 0 WhenType.End).getD 0 =
      Payment.pmt 1 2 1 0 WhenType.End :=
  ipmt_ppmt_sum 1 1 2 1 0 WhenType.End (by norm_num) (by norm_num)

/-- Specification claim C8: `ModifiedIRR.get()` returns absence exactly when
the values sequence does not contain both a value `≤ 0` and a value `> 0`;
whenever that sign precondition passes, the result is `some`. -/
theorem mirr_absence_iff (values : List ℚ) (finance_rate reinvest_rate : ℚ) :
    ModifiedIRR.mirr values finance_rate reinvest_rate = none ↔
      ¬((∃ v ∈ values, v ≤ 0) ∧ (∃ v ∈ values, 0 < v)) := by
  have hiff : ((values.any fun v => decide (v ≤ 0)) &&
        (values.any fun v => decide (0 < v))) = true ↔
      ((∃ v ∈ values, v ≤ 0) ∧ (∃ v ∈ values, 0 < v)) := by
    simp [List.any_eq_true]
  by_cases h : ((values.any fun v => decide (v ≤ 0)) &&
      (values.any fun v => decide (0 < v))) = true
  · have hres : ModifiedIRR.mirr values finance_rate reinvest_rate ≠ none := by
      unfold ModifiedIRR.mirr
      simp [h]
    simp only [hres, false_iff, not_not]
    exact hiff.mp h
  · have hres : ModifiedIRR.mirr values finance_rate reinvest_rate = none := by
      unfold ModifiedIRR.mirr
      simp [h]
    simp only [hres, true_iff]
    intro hc
    exact h (hiff.mpr hc)

/-- Witness for C8 at a concrete input: a single positive cash flow fails the
mixed-sign precondition, so the result is absence. -/
theorem mirr_absence_iff_witness : ModifiedIRR.mirr [1] 0 0 = none :=
  (mirr_absence_iff [1] 0 0).mpr (by norm_num)

/-- Helper for claim C2: a cash-flow sequence of length 1 consists of a single
value, which cannot be both `≤ 0` and `> 0`, so the sign precondition of
`ModifiedIRR::mirr` fails and the function returns `none` before the
closed-form power step. -/
theorem mirr_len_one_aux (values : List ℚ) (finance_rate reinvest_rate : ℚ)
    (h : values.length = 1) :
    ModifiedIRR.mirr values finance_rate reinvest_rate = none := by
  obtain ⟨a, rfl⟩ : ∃ a, values = [a] := by
    cases values with
    | nil => simp at h
    | cons a t =>
      cases t with
      | nil => exact ⟨a, rfl⟩
      | cons b t2 => simp at h
  unfold ModifiedIRR.mirr
  by_cases ha : a ≤ 0
  · have hb : ¬(0 < a) := not_lt.mpr ha
    simp [ha, hb]
  · simp [ha]

/-- Counterexample for claim C2: no cash-flow sequence of length 1 (with any
finance and reinvestment rates) ever reaches the closed-form step of
`ModifiedIRR::mirr` — its result is always `none`, so the claimed division by
zero in the exponent `1 / (n - 1)` never occurs. -/
theorem mirr_len_one_never_reaches_power :
    ¬∃ (values : List ℚ) (finance_rate reinvest_rate : ℚ),
      values.length = 1 ∧
        (ModifiedIRR.mirr values finance_rate reinvest_rate).isSome = true := by
  rintro ⟨v, fr, rr, h1, h2⟩
  rw [mirr_len_one_aux v fr rr h1] at h2
  simp at h2

/-- Specification claim C2 (amended): for every cash-flow sequence of length
1, `ModifiedIRR.get()` returns `none` at the mixed-sign precondition check (a
single value cannot be both `≤ 0` and `> 0`), so the closed-form step with
exponent `1 / (n - 1)` is never reached and no division by zero occurs. -/
theorem mirr_len_one_none (values : List ℚ) (finance_rate reinvest_rate : ℚ)
    (h : values.length = 1) :
    ModifiedIRR.mirr values finance_rate reinvest_rate = none :=
  mirr_len_one_aux values finance_rate reinvest_rate h

/-- Witness for the amended C2 at a concrete input: the length-1 sequence
`[5]` with finance rate `1/20` and reinvestment rate `3/50` yields absence. -/
theorem mirr_len_one_none_witness :
    ModifiedIRR.mirr [5] (1 / 20) (3 / 50) = none :=
  mirr_len_one_none [5] (1 / 20) (3 / 50) rfl

/-- Helper for claim C1: on the cash flows `[1, 0, 1]` the polynomial of
`InternalRateReturn::fx` is `x ^ 2 + 1` (reversed coefficients, ascending
powers). -/
theorem fx_one_zero_one (x : ℚ) : InternalRateReturn.fx [1, 0, 1] x = x ^ 2 + 1 := by
  show (1 : ℚ) * x ^ 0 + (0 * x ^ 1 + (1 * x ^ 2 + 0)) = x ^ 2 + 1
  ring

/-- Helper for claim C1: on the cash flows `[1, 0, 1]` the derivative of
`InternalRateReturn::dx` is `2 * x`. -/
theorem dx_one_zero_one (x : ℚ) : InternalRateReturn.dx [1, 0, 1] x = 2 * x := by
  show (0 : ℚ) * (((0 : ℕ) : ℚ) + 1) * x ^ 0 + (1 * (((1 : ℕ) : ℚ) + 1) * x ^ 1 + 0) = 2 * x
  push_cast
  ring

/-- Helper for claim C1: a Newton step on `x ^ 2 + 1` is never
tolerance-close to its predecessor — the absolute gap `(x ^ 2 + 1) / |2 x|`
is at least `1 > ATOL`, and the relative gap `(x ^ 2 + 1) / |x ^ 2 - 1|` is
at least `1 > RTOL` (the zero-divisor relative branch is false by IEEE
semantics). -/
theorem newton_step_not_close (x : ℚ) (hx : x ≠ 0) :
    float_close x (x - (x ^ 2 + 1) / (2 * x)) RTOL ATOL = false := by
  have hx2 : (0 : ℚ) < x ^ 2 := lt_of_le_of_ne (sq_nonneg x) (Ne.symm (pow_ne_zero 2 hx))
  have h2x : (2 : ℚ) * x ≠ 0 := by simpa using hx
  have habs2x : (0 : ℚ) < |2 * x| := abs_pos.mpr h2x
  have hdiff : x - (x - (x ^ 2 + 1) / (2 * x)) = (x ^ 2 + 1) / (2 * x) := by ring
  have habs : |x - (x - (x ^ 2 + 1) / (2 * x))| = (x ^ 2 + 1) / |2 * x| := by
    rw [hdiff, abs_div, abs_of_pos (by positivity : (0 : ℚ) < x ^ 2 + 1)]
  have h2abs : |2 * x| = 2 * |x| := by
    rw [abs_mul]
    norm_num
  have hge1 : (1 : ℚ) ≤ (x ^ 2 + 1) / |2 * x| := by
    rw [le_div_iff₀ habs2x, h2abs]
    nlinarith [sq_nonneg (|x| - 1), sq_abs x]
  have hcond2 : ¬(|x - (x - (x ^ 2 + 1) / (2 * x))| ≤ ATOL) := by
    rw [habs]
    intro hle
    have : (1 : ℚ) ≤ ATOL := le_trans hge1 hle
    norm_num [ATOL] at this
  simp only [float_close, Bool.or_eq_false_iff, decide_eq_false_iff_not]
  refine ⟨?_, hcond2⟩
  by_cases hx1 : x - (x ^ 2 + 1) / (2 * x) = 0
  · rw [if_pos hx1]
  · rw [if_neg hx1]
    simp only [decide_eq_false_iff_not]
    intro hle
    have hx1eq : x - (x ^ 2 + 1) / (2 * x) = (x ^ 2 - 1) / (2 * x) := by
      field_simp
      ring
    have hne : x ^ 2 - 1 ≠ 0 := by
      intro h0
      apply hx1
      rw [hx1eq, h0, zero_div]
    have hq : (x - (x - (x ^ 2 + 1) / (2 * x))) / (x - (x ^ 2 + 1) / (2 * x)) =
        (x ^ 2 + 1) / (x ^ 2 - 1) := by
      rw [hdiff, hx1eq]
      field_simp
    have habsq : |(x - (x - (x ^ 2 + 1) / (2 * x))) / (x - (x ^ 2 + 1) / (2 * x))| =
        (x ^ 2 + 1) / |x ^ 2 - 1| := by
      rw [hq, abs_div, abs_of_pos (by positivity : (0 : ℚ) < x ^ 2 + 1)]
    rw [habsq] at hle
    have habsne : (0 : ℚ) < |x ^ 2 - 1| := abs_pos.mpr hne
    have hle1 : |x ^ 2 - 1| ≤ x ^ 2 + 1 := by
      rcases abs_cases (x ^ 2 - 1) with ⟨h, _⟩ | ⟨h, _⟩ <;> nlinarith
    have hge1' : (1 : ℚ) ≤ (x ^ 2 + 1) / |x ^ 2 - 1| := by
      rw [le_div_iff₀ habsne]
      linarith
    have : (1 : ℚ) ≤ RTOL := le_trans hge1' hle
    norm_num [RTOL] at this

/-- Helper for claim C1: starting from any iterate, the Newton search of
`find_root` on the cash flows `[1, 0, 1]` (polynomial `x ^ 2 + 1`, which has
no real root) never converges, so every iteration budget is exhausted and the
loop returns `none`. -/
theorem findRootLoop_one_zero_one_none (k : ℕ) :
    ∀ x : ℚ, InternalRateReturn.findRootLoop [1, 0, 1] x k = none := by
  induction k with
  | zero => intro x; rfl
  | succ k ih =>
    intro x
    show (if float_close (InternalRateReturn.dx [1, 0, 1] x) 0 RTOL ATOL then
        InternalRateReturn.findRootLoop [1, 0, 1] (x + 1) k
      else
        if float_close x
            (x - InternalRateReturn.fx [1, 0, 1] x / InternalRateReturn.dx [1, 0, 1] x)
            RTOL ATOL then
          some (x - InternalRateReturn.fx [1, 0, 1] x / InternalRateReturn.dx [1, 0, 1] x)
        else
          InternalRateReturn.findRootLoop [1, 0, 1]
            (x - InternalRateReturn.fx [1, 0, 1] x / InternalRateReturn.dx [1, 0, 1] x) k) =
      none
    by_cases hd : float_close (InternalRateReturn.dx [1, 0, 1] x) 0 RTOL ATOL = true
    · rw [if_pos hd]
      exact ih (x + 1)
    · rw [if_neg hd]
      have hx : x ≠ 0 := by
        rintro rfl
        apply hd
        rw [dx_one_zero_one]
        simp [float_close, ATOL]
      have hnc : float_close x
          (x - InternalRateReturn.fx [1, 0, 1] x / InternalRateReturn.dx [1, 0, 1] x)
          RTOL ATOL = false := by
        rw [fx_one_zero_one, dx_one_zero_one]
        exact newton_step_not_close x hx
      rw [hnc]
      simp only [Bool.false_eq_true, if_false]
      rw [fx_one_zero_one, dx_one_zero_one]
      exact ih (x - (x ^ 2 + 1) / (2 * x))

/-- Specification claim C1 (refuted by the code at the exhaustion case): on
the cash flows `[1, 0, 1]` — length `3 > 1`, not all values `≤ 0`, not all
values `> 0`, so both preconditions pass — the Newton-Raphson search from
`x = -0.9` exhausts its 100 iterations without convergence, `find_root`
returns `None`, and `irr`'s `find_root(..)?.unwrap()` panics instead of
returning `Ok(None)` as the specification (and the code's own comments)
require. -/
theorem irr_one_zero_one_panics :
    InternalRateReturn.irr [1, 0, 1] = IrrResult.panicked := by
  have h : InternalRateReturn.find_root [1, 0, 1] = none :=
    findRootLoop_one_zero_one_none 100 (-(9 / 10))
  have e1 : (decide ((1 : ℚ) ≤ 0)) = false := decide_eq_false (by norm_num)
  have e2 : (decide ((0 : ℚ) < 0)) = false := decide_eq_false (lt_irrefl 0)
  unfold InternalRateReturn.irr
  rw [if_neg (by norm_num : ¬(([1, 0, 1] : List ℚ).length ≤ 1))]
  rw [h]
  simp [e1, e2]

/-- Helper for claim C9: unfolding one pass of the `Rate::rate` loop. -/
theorem rateLoop_succ_eq (n : ℕ) (pmt pv fv : ℚ) (w : WhenType) (tol rn : ℚ) (k : ℕ) :
    Rate.rateLoop n pmt pv fv w tol rn (k + 1) =
      if |Rate.step n pmt pv fv w rn - rn| < tol then some (Rate.step n pmt pv fv w rn)
      else Rate.rateLoop n pmt pv fv w tol (Rate.step n pmt pv fv w rn) k := rfl

/-- Helper for claim C9: the `Rate::rate` loop with fuel `k` starting from
iterate `rn` returns `some r` exactly when some step count `j < k` is the
first at which two successive Newton iterates get within `tol` of each other,
and `r` is the updated iterate of that step. -/
theorem rateLoop_some_iff (n : ℕ) (pmt pv fv : ℚ) (w : WhenType) (tol r : ℚ) :
    ∀ (k : ℕ) (rn : ℚ), Rate.rateLoop n pmt pv fv w tol rn k = some r ↔
      ∃ j, j < k ∧
        (∀ m, m < j →
          ¬|(Rate.step n pmt pv fv w)^[m + 1] rn - (Rate.step n pmt pv fv w)^[m] rn| < tol) ∧
        |(Rate.step n pmt pv fv w)^[j + 1] rn - (Rate.step n pmt pv fv w)^[j] rn| < tol ∧
        r = (Rate.step n pmt pv fv w)^[j + 1] rn := by
  intro k
  induction k with
  | zero =>
    intro rn
    constructor
    · intro h
      exact Option.noConfusion h
    · rintro ⟨j, hj, -⟩
      exact absurd hj (Nat.not_lt_zero j)
  | succ k ih =>
    intro rn
    rw [rateLoop_succ_eq]
    by_cases hc : |Rate.step n pmt pv fv w rn - rn| < tol
    · rw [if_pos hc]
      constructor
      · intro h
        refine ⟨0, Nat.succ_pos k, ?_, ?_, ?_⟩
        · intro m hm
          exact absurd hm (Nat.not_lt_zero m)
        · simpa using hc
        · simpa using (Option.some.inj h).symm
      · rintro ⟨j, hjk, hmin, hconv, hr⟩
        have hj0 : j = 0 := by
          by_contra hne
          exact hmin 0 (Nat.pos_of_ne_zero hne) (by simpa using hc)
        subst hj0
        have h2 : r = Rate.step n pmt pv fv w rn := by simpa using hr
        rw [h2]
    · rw [if_neg hc]
      rw [ih (Rate.step n pmt pv fv w rn)]
      constructor
      · rintro ⟨j, hjk, hmin, hconv, hr⟩
        refine ⟨j + 1, by omega, ?_, ?_, ?_⟩
        · intro m hm
          cases m with
          | zero => simpa using hc
          | succ m2 =>
            have hmm := hmin m2 (by omega)
            simp only [Nat.succ_eq_add_one, Function.iterate_succ_apply] at hmm ⊢
            exact hmm
        · have hcc := hconv
          simp only [Function.iterate_succ_apply] at hcc ⊢
          exact hcc
        · have hrr := hr
          simp only [Function.iterate_succ_apply] at hrr ⊢
          exact hrr
      · rintro ⟨j, hjk, hmin, hconv, hr⟩
        have hj : j ≠ 0 := by
          rintro rfl
          exact hc (by simpa using hconv)
        obtain ⟨j2, rfl⟩ : ∃ j2, j = j2 + 1 := ⟨j - 1, by omega⟩
        refine ⟨j2, by omega, ?_, ?_, ?_⟩
        · intro m hm
          have hmm := hmin (m + 1) (by omega)
          simp only [Function.iterate_succ_apply] at hmm ⊢
          exact hmm
        · have hcc := hconv
          simp only [Function.iterate_succ_apply] at hcc ⊢
          exact hcc
        · have hrr := hr
          simp only [Function.iterate_succ_apply] at hrr ⊢
          exact hrr

/-- Specification claim C9: `Rate.get()` runs the Newton iteration
`r_next = r - g(r)/g'(r)` from the caller-supplied guess for at most
`maxiter` steps, declaring convergence when `|r_next - r| < tol`; it returns
`some` of the last iterate exactly when convergence occurs within `maxiter`
iterations (at the first converging step), and `none` when `maxiter` is
exhausted without convergence — for every `nper`, `pmt`, `pv`, `fv`, `when`,
`guess`, `tol` and `maxiter`. -/
theorem rate_newton_contract (n : ℕ) (pmt pv fv : ℚ) (w : WhenType)
    (guess tol : ℚ) (maxiter : ℕ) :
    (∀ r : ℚ, Rate.rate n pmt pv fv w guess tol maxiter = some r ↔
      ∃ i, i < maxiter ∧
        (∀ m, m < i →
          ¬|Rate.seq n pmt pv fv w guess (m + 1) - Rate.seq n pmt pv fv w guess m| < tol) ∧
        |Rate.seq n pmt pv fv w guess (i + 1) - Rate.seq n pmt pv fv w guess i| < tol ∧
        r = Rate.seq n pmt pv fv w guess (i + 1)) ∧
    (Rate.rate n pmt pv fv w guess tol maxiter = none ↔
      ¬∃ i, i < maxiter ∧
        (∀ m, m < i →
          ¬|Rate.seq n pmt pv fv w guess (m + 1) - Rate.seq n pmt pv fv w guess m| < tol) ∧
        |Rate.seq n pmt pv fv w guess (i + 1) - Rate.seq n pmt pv fv w guess i| < tol) := by
  have hbase : ∀ r : ℚ, Rate.rate n pmt pv fv w guess tol maxiter = some r ↔
      ∃ i, i < maxiter ∧
        (∀ m, m < i →
          ¬|Rate.seq n pmt pv fv w guess (m + 1) - Rate.seq n pmt pv fv w guess m| < tol) ∧
        |Rate.seq n pmt pv fv w guess (i + 1) - Rate.seq n pmt pv fv w guess i| < tol ∧
        r = Rate.seq n pmt pv fv w guess (i + 1) := by
    intro r
    exact rateLoop_some_iff n pmt pv fv w tol r maxiter guess
  refine ⟨hbase, ?_, ?_⟩
  · intro hnone hex
    obtain ⟨i, hi, hmin, hconv⟩ := hex
    have h1 := (hbase (Rate.seq n pmt pv fv w guess (i + 1))).mpr ⟨i, hi, hmin, hconv, rfl⟩
    rw [hnone] at h1
    exact Option.noConfusion h1
  · intro hnex
    cases hcase : Rate.rate n pmt pv fv w guess tol maxiter with
    | none => rfl
    | some r =>
      obtain ⟨i, hi, hmin, hconv, -⟩ := (hbase r).mp hcase
      exact absurd ⟨i, hi, hmin, hconv⟩ hnex

/-- Witness for C9 at a concrete input: with `nper = 1`, `pmt = 0`, `pv = 1`,
`fv = 0`, `when = End`, `guess = 1`, `tol = 1000000` and `maxiter = 1`, the
first Newton step moves from `1` to `-1`, the gap `2` is below the (huge)
tolerance, and the solver returns `some (-1)`. -/
theorem rate_newton_contract_witness :
    Rate.rate 1 0 1 0 WhenType.End 1 1000000 1 = some (-1) := by
  have hseq0 : Rate.seq 1 0 1 0 WhenType.End 1 0 = 1 := rfl
  have hstep : Rate.step 1 0 1 0 WhenType.End 1 = -1 := by
    norm_num [Rate.step, Rate._g_div_gp, whenF64]
  have hseq1 : Rate.seq 1 0 1 0 WhenType.End 1 (0 + 1) = -1 := by
    show (Rate.step 1 0 1 0 WhenType.End)^[0 + 1] 1 = -1
    simpa using hstep
  refine ((rate_newton_contract 1 0 1 0 WhenType.End 1 1000000 1).1 (-1)).mpr
    ⟨0, Nat.zero_lt_one, ?_, ?_, ?_⟩
  · intro m hm
    exact absurd hm (Nat.not_lt_zero m)
  · rw [hseq1, hseq0]
    norm_num
  · rw [hseq1]

/-- Specification claim C10: with `maxiter = 0` the `Rate::rate` loop body
never executes, the convergence flag stays false, and `Rate.get()` returns
`none` regardless of `nper`, `pmt`, `pv`, `fv`, `when`, `guess` and `tol` —
in particular the guess is never returned. -/
theorem rate_zero_maxiter_none (n : ℕ) (pmt pv fv : ℚ) (w : WhenType) (guess tol : ℚ) :
    Rate.rate n pmt pv fv w guess tol 0 = none := rfl

end RNF
